import Mathlib

/-!
Verification model of `main.py` (violet4/host_website): a static-site server
that rewrites occurrences of a configured original domain out of served
HTML/CSS/JS content, and resolves request paths to files under a content root.

Strings are modelled as `List Char`. Python regular-expression substitution
(`re.sub`) for the three concrete `url_patterns` and the serialization
safety-net pattern is modelled by explicit left-to-right scanners that follow
Python `re` semantics for these concrete patterns: leftmost match, greedy
character-class runs, lazy dot-star that stops at the earliest position where
the rest of the pattern matches, `.` matching anything but a newline, and
scanning resuming after the end of each replaced match.
-/

/-- The single-quote character, `'`. -/
def squote : Char := Char.ofNat 39

/-- Python `\s` on the content handled here (ASCII whitespace as matched by
`re` on such text: space, tab, newline, carriage return, vertical tab, form feed). -/
def isSpaceChar (c : Char) : Bool :=
  c = ' ' || c = '\t' || c = '\n' || c = '\r' || c = Char.ofNat 11 || c = Char.ofNat 12

/-- Characters matched by the character class `[^"\'\s]` in the url patterns. -/
def pathChar (c : Char) : Bool :=
  !(c = '"' || c = squote || isSpaceChar c)

/-- Case-insensitive literal prefix test (for the `re.IGNORECASE` patterns). -/
def startsWithCI : List Char → List Char → Bool
  | [], _ => true
  | _ :: _, [] => false
  | p :: ps, c :: cs => p.toLower = c.toLower && startsWithCI ps cs

/-- One character of the netloc-as-regex-fragment: `.` (left unescaped in the
source patterns) matches any character except `'\n'`; every other character
matches literally, case-insensitively when `ci` is set. -/
def dotCharMatch (ci : Bool) (p c : Char) : Bool :=
  if p = '.' then c != '\n' else (if ci then p.toLower == c.toLower else p == c)

/-- Match the netloc text as the regex fragment it is interpolated into the
patterns as (see `dotCharMatch`). Returns the remainder after the match. -/
def matchDots (ci : Bool) : List Char → List Char → Option (List Char)
  | [], s => some s
  | _ :: _, [] => none
  | p :: ps, c :: cs => if dotCharMatch ci p c then matchDots ci ps cs else none

/-- Match `https?://` case-insensitively (greedy optional `s`, as in the regex),
returning the remainder. -/
def matchScheme (s : List Char) : Option (List Char) :=
  if startsWithCI "https://".toList s then some (s.drop 8)
  else if startsWithCI "http://".toList s then some (s.drop 7)
  else none

/-- Match `https?://` case-sensitively (the serialization safety-net pattern
at line 122 of `main.py` is compiled without flags). -/
def matchSchemeCS (s : List Char) : Option (List Char) :=
  if "https://".toList.isPrefixOf s then some (s.drop 8)
  else if "http://".toList.isPrefixOf s then some (s.drop 7)
  else none

/-- The lazy fragment `.*?{netloc}`: find the earliest position at which the
netloc matches, skipping only non-newline characters (regex `.`), and return
the remainder after the netloc. -/
def findNetloc (netloc : List Char) : List Char → Option (List Char)
  | [] => matchDots true netloc []
  | c :: cs =>
    match matchDots true netloc (c :: cs) with
    | some r => some r
    | none => if c = '\n' then none else findNetloc netloc cs

/-- One match attempt of the first url pattern
`(https?://{netloc})(/[^"\'\s]*)?` (IGNORECASE) with the replacement function
`_replace_full_url`: the replacement is group 2 (`/` plus a greedy run of
path characters) when present, else the empty string.
Returns `(replacement, remainder)` on a match at the head of `s`. -/
def matchP1 (netloc : List Char) (s : List Char) : Option (List Char × List Char) :=
  match matchScheme s with
  | none => none
  | some s1 =>
    match matchDots true netloc s1 with
    | none => none
    | some s2 =>
      match s2 with
      | '/' :: r => some ('/' :: r.takeWhile pathChar, r.dropWhile pathChar)
      | _ => some ([], s2)

/-- One match attempt of the quoted protocol-relative url patterns
`q//(.*?{netloc})(/[^"\'\s]*)?` (IGNORECASE, `q` the quote character) with the
replacement function `_replace_protocol_relative_url`: the replacement is the
quote, group 2 if present, and the quote again (`'""'` / `"''"` when group 2
is absent). Returns `(replacement, remainder)` on a match at the head. -/
def matchP23 (q : Char) (netloc : List Char) (s : List Char) : Option (List Char × List Char) :=
  match s with
  | c1 :: '/' :: '/' :: r =>
    if c1 = q then
      match findNetloc netloc r with
      | none => none
      | some rest1 =>
        match rest1 with
        | '/' :: r2 => some (q :: '/' :: (r2.takeWhile pathChar ++ [q]), r2.dropWhile pathChar)
        | _ => some ([q, q], rest1)
    else none
  | _ => none

/-- One match attempt of the serialization safety-net pattern
`(https?://)?{netloc}` (no flags, replacement `""`): the optional scheme is
tried first, with backtracking to the bare netloc when the netloc does not
follow the scheme. -/
def matchSafety (netloc : List Char) (s : List Char) : Option (List Char × List Char) :=
  match matchSchemeCS s with
  | some s1 =>
    match matchDots false netloc s1 with
    | some s2 => some ([], s2)
    | none => (matchDots false netloc s).map (fun r => ([], r))
  | none => (matchDots false netloc s).map (fun r => ([], r))

/-- `re.sub` driver: scan left to right; at each position apply the match
attempt `m`; on a match emit the replacement and resume after the match,
otherwise keep the character and move on. Fuel bounds the recursion; every
matcher used here consumes at least one character, so fuel `s.length`
is exact. -/
def subFuel (m : List Char → Option (List Char × List Char)) : Nat → List Char → List Char
  | 0, s => s
  | _ + 1, [] => []
  | f + 1, c :: cs =>
    match m (c :: cs) with
    | some (r, rest) => r ++ subFuel m f rest
    | none => c :: subFuel m f cs

/-- `pattern.sub(replacer, s)` for the scanners above. -/
def subP (m : List Char → Option (List Char × List Char)) (s : List Char) : List Char :=
  subFuel m s.length s

/-- Python `in` on strings: literal (case-sensitive) substring test. -/
def containsSub (pat : List Char) : List Char → Bool
  | [] => pat.isEmpty
  | c :: cs => pat.isPrefixOf (c :: cs) || containsSub pat cs

/-- Python `s.replace(pat, '')`: remove every (non-overlapping, leftmost-first)
literal occurrence of `pat`, resuming the scan after each removed occurrence. -/
def replaceAll (pat : List Char) (s : List Char) : List Char :=
  subFuel (fun s' => if pat ≠ [] && pat.isPrefixOf s' then some ([], s'.drop pat.length) else none)
    s.length s

/-- `DomainRewriter.rewrite_css` (lines 126-130 of `main.py`): apply the three
compiled `url_patterns` in order over the whole text. -/
def rewrite_css (netloc : List Char) (content : List Char) : List Char :=
  subP (matchP23 squote netloc) (subP (matchP23 '"' netloc) (subP (matchP1 netloc) content))

/-- `DomainRewriter.rewrite_js` (lines 132-136 of `main.py`): identical to
`rewrite_css`, applying the same three patterns in the same order. -/
def rewrite_js (netloc : List Char) (content : List Char) : List Char :=
  subP (matchP23 squote netloc) (subP (matchP23 '"' netloc) (subP (matchP1 netloc) content))

/-- The serialization safety-net loop (lines 119-123 of `main.py`):
`while netloc in content: content = re.sub("(https?://)?netloc", "", content)`.
The loop is modelled with explicit fuel counting its iterations; the source
loop is unbounded, and the development proves that fuel `content.length`
always suffices for the guard to clear. -/
def safetyLoop (netloc : List Char) : Nat → List Char → List Char
  | 0, content => content
  | f + 1, content =>
    if containsSub netloc content then safetyLoop netloc f (subP (matchSafety netloc) content)
    else content

/-!
Path resolution (`DomainRewriter.get_file_path`, lines 138-149 of `main.py`).

The filesystem is modelled as the sets (lists) of absolute paths of regular
files and of directories, each path a list of name components. `pathlib`
joining drops empty and `.` components and keeps `..` literally; the operating
system resolves `.` and `..` when a path is checked for existence.
-/

/-- Split a request-path string on `/`, dropping empty and `.` components,
as `pathlib` does when a string is joined onto a `Path`. -/
def splitSlashAux (cur : List Char) : List Char → List (List Char)
  | [] => [cur.reverse]
  | c :: cs => if c = '/' then cur.reverse :: splitSlashAux [] cs else splitSlashAux (c :: cur) cs

/-- Path components of a string, `pathlib`-style. -/
def splitSlash (s : List Char) : List (List Char) :=
  (splitSlashAux [] s).filter (fun comp => !(comp = [] || comp = ".".toList))

/-- Python `path.lstrip('/')`: drop every leading slash. -/
def lstripSlashes (s : List Char) : List Char :=
  s.dropWhile (fun c => c = '/')

/-- `self.content_root / path.lstrip('/')`: textual join, keeping `..`. -/
def pathJoin (root : List (List Char)) (s : List Char) : List (List Char) :=
  root ++ splitSlash (lstripSlashes s)

/-- Operating-system resolution of `.` and `..` components (no symlinks in the
model; the parent of the filesystem root is the root itself). -/
def osNormalize (p : List (List Char)) : List (List Char) :=
  p.foldl
    (fun acc comp =>
      if comp = ".".toList then acc
      else if comp = "..".toList then acc.dropLast
      else acc ++ [comp]) []

/-- A filesystem: the absolute paths of its regular files and directories. -/
structure FileSystem where
  files : List (List (List Char))
  dirs : List (List (List Char))

/-- `Path.exists()`: the OS-resolved path names a regular file or a directory. -/
def fsExists (fs : FileSystem) (p : List (List Char)) : Bool :=
  fs.files.contains (osNormalize p) || fs.dirs.contains (osNormalize p)

/-- `Path.is_file()`: the OS-resolved path names a regular file. -/
def fsIsFile (fs : FileSystem) (p : List (List Char)) : Bool :=
  fs.files.contains (osNormalize p)

/-- The tuple of known static extensions from line 145 of `main.py`. -/
def staticExts : List (List Char) :=
  [".html".toList, ".htm".toList, ".css".toList, ".js".toList, ".jpg".toList,
   ".jpeg".toList, ".png".toList, ".gif".toList, ".svg".toList, ".webp".toList,
   ".ico".toList, ".pdf".toList, ".txt".toList]

/-- `path.endswith(('.html', ...))`. -/
def endsWithAnyExt (s : List Char) : Bool :=
  staticExts.any (fun e => e.isSuffixOf s)

/-- `DomainRewriter.get_file_path` (lines 138-149 of `main.py`): return the
direct join when it exists and is a regular file; otherwise map `/` to
`/index.html`, append `index.html` to extensionless directory-style paths,
and return the re-joined path when it exists (regular file or not),
else `none`. -/
def get_file_path (fs : FileSystem) (root : List (List Char)) (path : List Char) :
    Option (List (List Char)) :=
  let raw_path := pathJoin root path
  if fsExists fs raw_path && fsIsFile fs raw_path then some raw_path
  else
    let path2 :=
      if path = "/".toList then "/index.html".toList
      else if !endsWithAnyExt path then
        (if !("/".toList.isSuffixOf path) then path ++ "/index.html".toList
         else path ++ "index.html".toList)
      else path
    let file_path := pathJoin root path2
    if fsExists fs file_path then some file_path else none

/-!
HTML documents (`DomainRewriter.rewrite_html`, lines 43-124 of `main.py`).

A parsed document is a tree of element and text nodes; an element carries its
(lower-cased) tag name, an association list of attributes, and its children.
The source applies its rewriting passes one after another over the whole tree
(`find_all` + in-place attribute mutation); since every pass reads and writes
only the attributes of the node it is visiting, the sequential tree-wide
passes coincide with applying the per-node attribute transformations composed
in pass order at every node, which is how the model states them.
-/

mutual
inductive Node where
  | text : List Char → Node
  | elem : List Char → List (List Char × List Char) → NodeList → Node
inductive NodeList where
  | nil : NodeList
  | cons : Node → NodeList → NodeList
end

/-- Attribute lookup (first binding wins, as in a dict-backed model). -/
def getAttr : List (List Char × List Char) → List Char → Option (List Char)
  | [], _ => none
  | (k, v) :: r, n => if k = n then some v else getAttr r n

/-- Attribute update: replace the first binding of the name, append if absent. -/
def setAttr : List (List Char × List Char) → List Char → List Char → List (List Char × List Char)
  | [], n, v => [(n, v)]
  | (k, w) :: r, n, v => if k = n then (k, v) :: r else (k, w) :: setAttr r n v

/-- The `<a href>` / `<script src>` / `<img src>` / `<link href>` /
`<form action>` passes (lines 48-77 and 104-109 of `main.py`): on an element
with the given tag carrying the given attribute, if the value starts with the
full original-domain url replace every occurrence of it with the empty string,
else if it starts with `//netloc` replace every occurrence of that. -/
def startAttrPass (od netloc tagName attrName : List Char) (t : List Char)
    (a : List (List Char × List Char)) : List (List Char × List Char) :=
  if t = tagName then
    match getAttr a attrName with
    | some v =>
      if od.isPrefixOf v then setAttr a attrName (replaceAll od v)
      else if ('/' :: '/' :: netloc).isPrefixOf v then
        setAttr a attrName (replaceAll ('/' :: '/' :: netloc) v)
      else a
    | none => a
  else a

/-- The `<meta http-equiv="refresh">` pass (lines 80-86 of `main.py`): on a
meta element with a `content` attribute whose `http-equiv` lower-cases to
`refresh`, replace every occurrence of the full original-domain url if one is
present anywhere in the value, else every occurrence of `//netloc` if present. -/
def metaPass (od netloc : List Char) (t : List Char)
    (a : List (List Char × List Char)) : List (List Char × List Char) :=
  if t = "meta".toList then
    match getAttr a "content".toList, getAttr a "http-equiv".toList with
    | some v, some hv =>
      if hv.map Char.toLower = "refresh".toList then
        if containsSub od v then setAttr a "content".toList (replaceAll od v)
        else if containsSub ('/' :: '/' :: netloc) v then
          setAttr a "content".toList (replaceAll ('/' :: '/' :: netloc) v)
        else a
      else a
    | _, _ => a
  else a

/-- The inline-`style` pass (lines 90-95 of `main.py`), on every element. -/
def stylePass (od netloc : List Char) (_t : List Char)
    (a : List (List Char × List Char)) : List (List Char × List Char) :=
  match getAttr a "style".toList with
  | some v =>
    if containsSub od v then setAttr a "style".toList (replaceAll od v)
    else if containsSub ('/' :: '/' :: netloc) v then
      setAttr a "style".toList (replaceAll ('/' :: '/' :: netloc) v)
    else a
  | none => a

/-- The `data-*` pass (lines 98-101 of `main.py`), on every element: every
attribute whose name starts with `data-` and whose value contains either form
has both forms removed, the full url first. -/
def dataPass (od netloc : List Char) (_t : List Char)
    (a : List (List Char × List Char)) : List (List Char × List Char) :=
  a.map (fun kv =>
    if "data-".toList.isPrefixOf kv.1 &&
        (containsSub od kv.2 || containsSub ('/' :: '/' :: netloc) kv.2) then
      (kv.1, replaceAll ('/' :: '/' :: netloc) (replaceAll od kv.2))
    else kv)

/-- The attribute rewrites of `rewrite_html`, composed in source order:
a, script, img, link, meta, style, data-*, form. -/
def applyPasses (od netloc : List Char) (t : List Char)
    (a : List (List Char × List Char)) : List (List Char × List Char) :=
  startAttrPass od netloc "form".toList "action".toList t
    (dataPass od netloc t
      (stylePass od netloc t
        (metaPass od netloc t
          (startAttrPass od netloc "link".toList "href".toList t
            (startAttrPass od netloc "img".toList "src".toList t
              (startAttrPass od netloc "script".toList "src".toList t
                (startAttrPass od netloc "a".toList "href".toList t a)))))))

mutual
/-- Apply an attribute transformation at every element of a tree. -/
def mapTree (f : List Char → List (List Char × List Char) → List (List Char × List Char)) :
    Node → Node
  | .text s => .text s
  | .elem t a ch => .elem t (f t a) (mapTreeL f ch)
def mapTreeL (f : List Char → List (List Char × List Char) → List (List Char × List Char)) :
    NodeList → NodeList
  | .nil => .nil
  | .cons n ns => .cons (mapTree f n) (mapTreeL f ns)
end

mutual
/-- Whether the tree contains an element with the given tag
(`soup.find(tag)` is truthy). -/
def containsTagN (t : List Char) : Node → Bool
  | .text _ => false
  | .elem tg _ ch => tg = t || containsTagL t ch
def containsTagL (t : List Char) : NodeList → Bool
  | .nil => false
  | .cons n ns => containsTagN t n || containsTagL t ns
end

mutual
/-- Insert `b` as the first child of the first `head` element in document
order (`soup.find('head')` followed by `head.insert(0, base_tag)`): an
element is found before its descendants, and an earlier subtree containing a
`head` is preferred over later siblings. -/
def insHead (b : Node) : Node → Node
  | .text s => .text s
  | .elem t a ch =>
    if t = "head".toList then .elem t a (.cons b ch) else .elem t a (insHeadL b ch)
def insHeadL (b : Node) : NodeList → NodeList
  | .nil => .nil
  | .cons n ns =>
    if containsTagN "head".toList n then .cons (insHead b n) ns
    else .cons n (insHeadL b ns)
end

/-- Lines 111-116 of `main.py`: when a `head` exists and no `base` element
exists anywhere in the document, insert `<base href="{request_base_url}">` as
the first child of the (first) `head`. -/
def insertBase (request_base_url : List Char) (doc : Node) : Node :=
  if containsTagN "head".toList doc && !containsTagN "base".toList doc then
    insHead (.elem "base".toList [("href".toList, request_base_url)] .nil) doc
  else doc

/-- The tree stage of `rewrite_html`: all attribute passes, then the
`base`-tag insertion. -/
def rewriteTree (od netloc request_base_url : List Char) (doc : Node) : Node :=
  insertBase request_base_url (mapTree (applyPasses od netloc) doc)

/-- Serialization of an attribute list. -/
def serializeAttrs : List (List Char × List Char) → List Char
  | [] => []
  | (k, v) :: r => ' ' :: (k ++ '=' :: '"' :: v ++ '"' :: serializeAttrs r)

mutual
/-- Serialization of the rewritten tree back to text (`str(soup)`). -/
def serializeN : Node → List Char
  | .text s => s
  | .elem t a ch =>
    '<' :: (t ++ serializeAttrs a ++ '>' :: serializeL ch ++ '<' :: '/' :: (t ++ ['>']))
def serializeL : NodeList → List Char
  | .nil => []
  | .cons n ns => serializeN n ++ serializeL ns
end

/-- `DomainRewriter.rewrite_html` (lines 43-124 of `main.py`): parse (the model
starts from the parsed document), run the structural passes and the base-tag
insertion, serialize, then run the safety-net substitution loop on the
serialized text. The loop fuel `s.length` is proved sufficient below. -/
def rewrite_html (od netloc request_base_url : List Char) (doc : Node) : List Char :=
  let s := serializeN (rewriteTree od netloc request_base_url doc)
  safetyLoop netloc s.length s

/-- Membership of a node in a child list. -/
inductive NLMem : Node → NodeList → Prop where
  | head (n : Node) (ns : NodeList) : NLMem n (.cons n ns)
  | tail (n m : Node) (ns : NodeList) : NLMem n ns → NLMem n (.cons m ns)

/-- A node occurs in a tree (the tree itself or a descendant). -/
inductive NodeIn : Node → Node → Prop where
  | refl (n : Node) : NodeIn n n
  | child (n c : Node) (t : List Char) (a : List (List Char × List Char)) (ch : NodeList) :
      NLMem c ch → NodeIn n c → NodeIn n (.elem t a ch)

/-!
Concrete fixtures used to settle the specification claims: the configured
domain of the worked examples and small documents/filesystems.
-/

/-- The normalized original domain of the worked examples,
`https://example.com`. -/
def exOD : List Char := "https://example.com".toList

/-- Its netloc, `example.com`. -/
def exNl : List Char := "example.com".toList

/-- A base url for the serving origin of the worked examples. -/
def mirrorBase : List Char := "http://mirror.local/".toList

/-- CSS content `url("//example.com/img.png")`. -/
def cssIn1 : List Char := "url(\"//example.com/img.png\")".toList

/-- What the code produces for `cssIn1`: `url("/img.png"")` (the match does
not consume the closing quote and the replacer adds a quote of its own). -/
def cssOut1 : List Char := "url(\"/img.png\"\")".toList

/-- What the spec expects for `cssIn1`: `url("/img.png")`. -/
def cssSpec1 : List Char := "url(\"/img.png\")".toList

/-- CSS content `url('//example.com')`. -/
def cssIn2 : List Char := "url(".toList ++ [squote] ++ "//example.com".toList ++ [squote, ')']

/-- What the code produces for `cssIn2`: `url(''')`. -/
def cssOut2 : List Char := "url(".toList ++ [squote, squote, squote, ')']

/-- What the spec expects for `cssIn2`: `url('')`. -/
def cssSpec2 : List Char := "url(".toList ++ [squote, squote, ')']

/-- A CSS input on which one rewrite pass reassembles a full url:
`htt` ++ `https://example.com` ++ `ps://example.com`. -/
def c6In : List Char := "htthttps://example.comps://example.com".toList

/-- A document whose only netloc occurrence sits in a text node, reachable
only by the serialization safety net. -/
def c6Doc : Node :=
  .elem "p".toList [] (.cons (.text "see https://example.com/about".toList) .nil)

/-- Content root `/srv/site` for the traversal example. -/
def c1Root : List (List Char) := ["srv".toList, "site".toList]

/-- A filesystem whose only regular file, `/srv/secret.txt`, lies outside the
content root `/srv/site`. -/
def c1Fs : FileSystem :=
  ⟨[["srv".toList, "secret.txt".toList]],
   [[], ["srv".toList], ["srv".toList, "site".toList]]⟩

/-- Content root `/www` for the resolution examples. -/
def c4Root : List (List Char) := ["www".toList]

/-- A content root holding exactly the regular files `index.html` and
`blog/index.html`. -/
def c4Fs : FileSystem :=
  ⟨[["www".toList, "index.html".toList], ["www".toList, "blog".toList, "index.html".toList]],
   [[], ["www".toList], ["www".toList, "blog".toList]]⟩

/-- Content root for the directory-fallback example. -/
def c10Root : List (List Char) := ["www".toList]

/-- A content root with a regular file `app.css` and a directory named
`theme.css`. -/
def c10Fs : FileSystem :=
  ⟨[["www".toList, "app.css".toList]],
   [[], ["www".toList], ["www".toList, "theme.css".toList]]⟩

/-- A lone anchor `<a href="https://example.com/foo">`. -/
def c3Doc : Node :=
  .elem "a".toList [("href".toList, "https://example.com/foo".toList)] .nil

/-- `<html><head></head><body></body></html>`. -/
def c7Doc : Node :=
  .elem "html".toList []
    (.cons (.elem "head".toList [] .nil) (.cons (.elem "body".toList [] .nil) .nil))

/-- A meta refresh whose content holds the full-url form and the
protocol-relative form at once. -/
def c8Doc : Node :=
  .elem "meta".toList
    [("http-equiv".toList, "refresh".toList),
     ("content".toList, "0;url=https://example.com/a //example.com/b".toList)] .nil

/-- Projection of the `content` attribute of a root element. -/
def contentAttrOf : Node → Option (List Char)
  | .elem _ a _ => getAttr a "content".toList
  | .text _ => none

/-!
Lemmas about the substitution scanners and the safety-net loop.
-/

theorem dotCharMatch_refl (ci : Bool) (c : Char) : dotCharMatch ci c c = true := by
  unfold dotCharMatch
  by_cases h : c = '.'
  · subst h; rw [if_pos rfl]; decide
  · rw [if_neg h]; cases ci <;> simp

theorem matchDots_length (ci : Bool) :
    ∀ (pat s r : List Char), matchDots ci pat s = some r → r.length + pat.length = s.length := by
  intro pat
  induction pat with
  | nil => intro s r h; simp [matchDots] at h; simp [h]
  | cons p ps ih =>
    intro s r h
    cases s with
    | nil => simp [matchDots] at h
    | cons c cs =>
      simp only [matchDots] at h
      cases hc : dotCharMatch ci p c with
      | true =>
        rw [hc, if_pos rfl] at h
        have := ih cs r h
        simp only [List.length_cons]
        omega
      | false => rw [hc] at h; simp at h

theorem matchDots_of_prefix (ci : Bool) :
    ∀ (pat s : List Char), pat.isPrefixOf s = true →
      matchDots ci pat s = some (s.drop pat.length) := by
  intro pat
  induction pat with
  | nil => intro s _; simp [matchDots]
  | cons p ps ih =>
    intro s h
    cases s with
    | nil => simp [List.isPrefixOf] at h
    | cons c cs =>
      simp only [List.isPrefixOf, Bool.and_eq_true, beq_iff_eq] at h
      obtain ⟨heq, h2⟩ := h
      subst heq
      simp only [matchDots, dotCharMatch_refl, if_pos]
      simpa using ih cs h2

theorem matchSchemeCS_len (s s1 : List Char) (h : matchSchemeCS s = some s1) :
    s1.length ≤ s.length := by
  unfold matchSchemeCS at h
  split at h
  · cases h; simp
  · split at h
    · cases h; simp
    · exact absurd h (by simp)

theorem matchSafety_shrinks (nl : List Char) (hnl : nl ≠ []) (s : List Char)
    (pr : List Char × List Char) (h : matchSafety nl s = some pr) :
    pr.1 = [] ∧ pr.2.length < s.length := by
  have hnlen : 1 ≤ nl.length := List.length_pos.mpr hnl
  unfold matchSafety at h
  split at h
  · rename_i s1 hs
    have hs1 : s1.length ≤ s.length := matchSchemeCS_len s s1 hs
    split at h
    · rename_i s2 hd
      cases h
      have := matchDots_length false nl s1 s2 hd
      exact ⟨rfl, by simp; omega⟩
    · rename_i hd
      cases hd2 : matchDots false nl s with
      | some r =>
        rw [hd2] at h
        simp only [Option.map_some'] at h
        cases h
        have := matchDots_length false nl s r hd2
        exact ⟨rfl, by simp; omega⟩
      | none => rw [hd2] at h; simp at h
  · rename_i hs
    cases hd2 : matchDots false nl s with
    | some r =>
      rw [hd2] at h
      simp only [Option.map_some'] at h
      cases h
      have := matchDots_length false nl s r hd2
      exact ⟨rfl, by simp; omega⟩
    | none => rw [hd2] at h; simp at h

theorem matchSafety_fires (nl s : List Char) (h : nl.isPrefixOf s = true) :
    matchSafety nl s ≠ none := by
  have hd : matchDots false nl s = some (s.drop nl.length) := matchDots_of_prefix false nl s h
  unfold matchSafety
  cases hs : matchSchemeCS s with
  | some s1 =>
    cases hd1 : matchDots false nl s1 with
    | some s2 => simp [hd1]
    | none => simp [hd1, hd]
  | none => simp [hd]

theorem containsSub_nil_of_ne (nl : List Char) (hnl : nl ≠ []) : containsSub nl [] = false := by
  cases nl with
  | nil => exact absurd rfl hnl
  | cons a as => rfl

theorem subFuel_len_le (m : List Char → Option (List Char × List Char))
    (hm : ∀ s pr, m s = some pr → pr.1 = [] ∧ pr.2.length < s.length) :
    ∀ (f : Nat) (s : List Char), s.length ≤ f → (subFuel m f s).length ≤ s.length := by
  intro f
  induction f with
  | zero => intro s _; simp [subFuel]
  | succ f ih =>
    intro s hf
    cases s with
    | nil => simp [subFuel]
    | cons c cs =>
      simp only [subFuel]
      cases h : m (c :: cs) with
      | some pr =>
        obtain ⟨h1, h2⟩ := hm _ _ h
        simp only [List.length_cons] at h2 hf
        have hrec := ih pr.2 (by omega)
        simp only [List.length_append, List.length_cons, h1, List.length_nil]
        omega
      | none =>
        simp only [List.length_cons] at hf
        have hrec := ih cs (by omega)
        simp only [List.length_cons]
        omega

theorem subSafety_shrink (nl : List Char) (hnl : nl ≠ []) :
    ∀ (f : Nat) (s : List Char), s.length ≤ f → containsSub nl s = true →
      (subFuel (matchSafety nl) f s).length < s.length := by
  intro f
  induction f with
  | zero =>
    intro s hf hc
    have hs : s = [] := by cases s with | nil => rfl | cons a as => simp at hf
    subst hs
    rw [containsSub_nil_of_ne nl hnl] at hc
    exact absurd hc (by simp)
  | succ f ih =>
    intro s hf hc
    cases s with
    | nil =>
      rw [containsSub_nil_of_ne nl hnl] at hc
      exact absurd hc (by simp)
    | cons c cs =>
      simp only [subFuel]
      cases h : matchSafety nl (c :: cs) with
      | some pr =>
        obtain ⟨h1, h2⟩ := matchSafety_shrinks nl hnl _ _ h
        simp only [List.length_cons] at h2 hf
        have hle := subFuel_len_le (matchSafety nl)
          (fun s pr => matchSafety_shrinks nl hnl s pr) f pr.2 (by omega)
        simp only [h1, List.nil_append, List.length_cons]
        omega
      | none =>
        have hnotpre : ¬ nl.isPrefixOf (c :: cs) = true := by
          intro hp
          exact matchSafety_fires nl (c :: cs) hp h
        simp only [containsSub, Bool.or_eq_true] at hc
        have hcs : containsSub nl cs = true := by
          rcases hc with hc | hc
          · exact absurd hc hnotpre
          · exact hc
        simp only [List.length_cons] at hf
        have := ih cs (by omega) hcs
        simp only [List.length_cons]
        omega

theorem safetyLoop_clears (nl : List Char) (hnl : nl ≠ []) :
    ∀ (f : Nat) (s : List Char), s.length ≤ f → containsSub nl (safetyLoop nl f s) = false := by
  intro f
  induction f with
  | zero =>
    intro s hf
    have hs : s = [] := by cases s with | nil => rfl | cons a as => simp at hf
    subst hs
    simpa [safetyLoop] using containsSub_nil_of_ne nl hnl
  | succ f ih =>
    intro s hf
    simp only [safetyLoop]
    cases hc : containsSub nl s with
    | true =>
      rw [if_pos rfl]
      have hshrink := subSafety_shrink nl hnl s.length s le_rfl hc
      refine ih _ ?_
      simp only [subP] at hshrink ⊢
      omega
    | false =>
      rw [if_neg (by simp)]
      exact hc

/-!
Lemmas about the document-tree stage of `rewrite_html`.
-/

theorem containsTag_mapTree
    (f : List Char → List (List Char × List Char) → List (List Char × List Char))
    (t : List Char) :
    ∀ n : Node, containsTagN t (mapTree f n) = containsTagN t n := by
  intro n
  induction n using Node.rec
    (motive_2 := fun ns => containsTagL t (mapTreeL f ns) = containsTagL t ns) with
  | text s => rfl
  | elem tg a ch ih => simp [mapTree, containsTagN, ih]
  | nil => rfl
  | cons n ns ih1 ih2 => simp [mapTreeL, containsTagL, ih1, ih2]

theorem NLMem_mapTreeL
    (f : List Char → List (List Char × List Char) → List (List Char × List Char))
    {c : Node} {ch : NodeList} (h : NLMem c ch) :
    NLMem (mapTree f c) (mapTreeL f ch) := by
  induction h with
  | head ns => exact NLMem.head _ _
  | tail m ns h ih => exact NLMem.tail _ _ _ ih

theorem NodeIn_mapTree
    (f : List Char → List (List Char × List Char) → List (List Char × List Char))
    {n d : Node} (h : NodeIn n d) :
    NodeIn (mapTree f n) (mapTree f d) := by
  induction h with
  | refl => exact NodeIn.refl _
  | child c t a ch hm hin ih =>
    exact NodeIn.child _ (mapTree f c) _ _ _ (NLMem_mapTreeL f hm) ih

theorem NLMem_insHeadL (b : Node) {c : Node} {ns : NodeList} (h : NLMem c ns) :
    NLMem c (insHeadL b ns) ∨ NLMem (insHead b c) (insHeadL b ns) := by
  induction h with
  | head ns =>
    simp only [insHeadL]
    cases hc : containsTagN "head".toList c with
    | true => rw [if_pos rfl]; exact Or.inr (NLMem.head _ _)
    | false => rw [if_neg (by simp)]; exact Or.inl (NLMem.head _ _)
  | tail m ns h ih =>
    simp only [insHeadL]
    cases hc : containsTagN "head".toList m with
    | true => rw [if_pos rfl]; exact Or.inl (NLMem.tail _ _ _ h)
    | false =>
      rw [if_neg (by simp)]
      rcases ih with ih | ih
      · exact Or.inl (NLMem.tail _ _ _ ih)
      · exact Or.inr (NLMem.tail _ _ _ ih)

theorem NodeIn_insHead (b : Node) {t : List Char} {a : List (List Char × List Char)}
    {ch : NodeList} {d : Node} (h : NodeIn (.elem t a ch) d) :
    ∃ ch2, NodeIn (.elem t a ch2) (insHead b d) := by
  have key : ∀ n d, NodeIn n d → n = Node.elem t a ch →
      ∃ ch2, NodeIn (.elem t a ch2) (insHead b d) := by
    intro n d hnd
    induction hnd with
    | refl =>
      intro hn
      subst hn
      simp only [insHead]
      by_cases ht : t = "head".toList
      · rw [if_pos ht]; exact ⟨NodeList.cons b ch, NodeIn.refl _⟩
      · rw [if_neg ht]; exact ⟨insHeadL b ch, NodeIn.refl _⟩
    | child c t0 a0 ch0 hm hin ih =>
      intro hn
      subst hn
      simp only [insHead]
      by_cases ht0 : t0 = "head".toList
      · rw [if_pos ht0]
        exact ⟨ch, NodeIn.child _ c _ _ _ (NLMem.tail _ _ _ hm) hin⟩
      · rw [if_neg ht0]
        rcases NLMem_insHeadL b hm with hm2 | hm2
        · exact ⟨ch, NodeIn.child _ c _ _ _ hm2 hin⟩
        · obtain ⟨ch2, h2⟩ := ih rfl
          exact ⟨ch2, NodeIn.child _ (insHead b c) _ _ _ hm2 h2⟩
  exact key _ d h rfl

theorem NodeIn_insertBase (burl : List Char) {t : List Char}
    {a : List (List Char × List Char)} {ch : NodeList} {d : Node}
    (h : NodeIn (.elem t a ch) d) :
    ∃ ch2, NodeIn (.elem t a ch2) (insertBase burl d) := by
  unfold insertBase
  by_cases hc : (containsTagN "head".toList d && !containsTagN "base".toList d) = true
  · rw [if_pos hc]; exact NodeIn_insHead _ h
  · rw [if_neg hc]; exact ⟨ch, h⟩

theorem NodeIn_rewriteTree (od nl burl : List Char) {t : List Char}
    {a : List (List Char × List Char)} {ch : NodeList} {doc : Node}
    (h : NodeIn (.elem t a ch) doc) :
    ∃ ch2, NodeIn (.elem t (applyPasses od nl t a) ch2) (rewriteTree od nl burl doc) := by
  have h1 := NodeIn_mapTree (applyPasses od nl) h
  simp only [mapTree] at h1
  exact NodeIn_insertBase burl h1

theorem insHead_finds (b : Node) :
    ∀ n : Node, containsTagN "head".toList n = true →
      ∃ a ch, NodeIn (.elem "head".toList a (.cons b ch)) (insHead b n) := by
  intro n
  induction n using Node.rec
    (motive_2 := fun ns => containsTagL "head".toList ns = true →
      ∃ m, NLMem m (insHeadL b ns) ∧
        ∃ a ch, NodeIn (.elem "head".toList a (.cons b ch)) m) with
  | text s => intro h; simp [containsTagN] at h
  | elem tg a ch ih =>
    intro h
    simp only [containsTagN, Bool.or_eq_true, decide_eq_true_eq] at h
    by_cases htg : tg = "head".toList
    · subst htg
      simp only [insHead, if_pos rfl]
      exact ⟨a, ch, NodeIn.refl _⟩
    · have hch : containsTagL "head".toList ch = true := by
        rcases h with h | h
        · exact absurd h htg
        · exact h
      obtain ⟨m, hmem, a2, ch2, hin⟩ := ih hch
      simp only [insHead, if_neg htg]
      exact ⟨a2, ch2, NodeIn.child _ m _ _ _ hmem hin⟩
  | nil => rename_i h; simp [containsTagL] at h
  | cons n ns ih1 ih2 =>
    rename_i h
    simp only [containsTagL, Bool.or_eq_true] at h
    cases hc : containsTagN "head".toList n with
    | true =>
      obtain ⟨a2, ch2, hin⟩ := ih1 hc
      refine ⟨insHead b n, ?_, a2, ch2, hin⟩
      simp only [insHeadL]
      rw [if_pos hc]
      exact NLMem.head _ _
    | false =>
      have hns : containsTagL "head".toList ns = true := by
        rcases h with h | h
        · rw [hc] at h; exact absurd h (by simp)
        · exact h
      obtain ⟨m, hmem, rest⟩ := ih2 hns
      refine ⟨m, ?_, rest⟩
      simp only [insHeadL]
      rw [if_neg (by rw [hc]; simp)]
      exact NLMem.tail _ _ _ hmem

/-!
Lemmas about attribute lookup through the rewrite passes.
-/

theorem getAttr_setAttr_same :
    ∀ (a : List (List Char × List Char)) (n v : List Char),
      getAttr (setAttr a n v) n = some v := by
  intro a
  induction a with
  | nil => intro n v; simp [setAttr, getAttr]
  | cons kv r ih =>
    intro n v
    obtain ⟨k, w⟩ := kv
    simp only [setAttr]
    by_cases hk : k = n
    · rw [if_pos hk]
      simp only [getAttr, if_pos hk]
    · rw [if_neg hk]
      simp only [getAttr, if_neg hk]
      exact ih n v

theorem getAttr_setAttr_other :
    ∀ (a : List (List Char × List Char)) (n v m : List Char), n ≠ m →
      getAttr (setAttr a n v) m = getAttr a m := by
  intro a
  induction a with
  | nil => intro n v m h; simp [setAttr, getAttr, h]
  | cons kv r ih =>
    intro n v m h
    obtain ⟨k, w⟩ := kv
    simp only [setAttr]
    by_cases hk : k = n
    · rw [if_pos hk]
      have hkm : ¬ k = m := by rw [hk]; exact h
      simp only [getAttr, if_neg hkm]
    · rw [if_neg hk]
      by_cases hkm : k = m
      · simp only [getAttr, if_pos hkm]
      · simp only [getAttr, if_neg hkm]
        exact ih n v m h

theorem startAttrPass_ne (od nl tagName attrName t : List Char)
    (a : List (List Char × List Char)) (h : t ≠ tagName) :
    startAttrPass od nl tagName attrName t a = a := by
  unfold startAttrPass
  rw [if_neg h]

theorem metaPass_ne (od nl t : List Char) (a : List (List Char × List Char))
    (h : t ≠ "meta".toList) : metaPass od nl t a = a := by
  unfold metaPass
  rw [if_neg h]

theorem getAttr_stylePass (od nl t : List Char) (a : List (List Char × List Char))
    (k : List Char) (h : "style".toList ≠ k) :
    getAttr (stylePass od nl t a) k = getAttr a k := by
  unfold stylePass
  cases hg : getAttr a "style".toList with
  | none => rfl
  | some v =>
    dsimp only
    by_cases h1 : containsSub od v = true
    · rw [if_pos h1]
      exact getAttr_setAttr_other a "style".toList (replaceAll od v) k h
    · rw [if_neg h1]
      by_cases h2 : containsSub ('/' :: '/' :: nl) v = true
      · rw [if_pos h2]
        exact getAttr_setAttr_other a "style".toList (replaceAll ('/' :: '/' :: nl) v) k h
      · rw [if_neg h2]

theorem getAttr_dataPass (od nl t : List Char) (k : List Char)
    (h : "data-".toList.isPrefixOf k = false) :
    ∀ a : List (List Char × List Char), getAttr (dataPass od nl t a) k = getAttr a k := by
  intro a
  induction a with
  | nil => rfl
  | cons kv r ih =>
    obtain ⟨k1, v1⟩ := kv
    simp only [dataPass, List.map_cons] at ih ⊢
    by_cases hk : k1 = k
    · subst hk
      rw [if_neg (by rw [h]; simp)]
      simp [getAttr]
    · by_cases hcond : ("data-".toList.isPrefixOf k1 &&
          (containsSub od v1 || containsSub ('/' :: '/' :: nl) v1)) = true
      · rw [if_pos hcond]
        simp only [getAttr, if_neg hk]
        exact ih
      · rw [if_neg hcond]
        simp only [getAttr, if_neg hk]
        exact ih

theorem getAttr_applyPasses_a (od nl : List Char) (a : List (List Char × List Char))
    (v : List Char) (hv : getAttr a "href".toList = some v) (hpre : od.isPrefixOf v = true) :
    getAttr (applyPasses od nl "a".toList a) "href".toList = some (replaceAll od v) := by
  unfold applyPasses
  have h1 : startAttrPass od nl "a".toList "href".toList "a".toList a
      = setAttr a "href".toList (replaceAll od v) := by
    unfold startAttrPass
    rw [if_pos rfl, hv]
    dsimp only
    rw [if_pos hpre]
  rw [h1]
  rw [startAttrPass_ne od nl "script".toList "src".toList "a".toList _ (by decide)]
  rw [startAttrPass_ne od nl "img".toList "src".toList "a".toList _ (by decide)]
  rw [startAttrPass_ne od nl "link".toList "href".toList "a".toList _ (by decide)]
  rw [metaPass_ne od nl "a".toList _ (by decide)]
  rw [startAttrPass_ne od nl "form".toList "action".toList "a".toList _ (by decide)]
  rw [getAttr_dataPass od nl "a".toList "href".toList (by decide)]
  rw [getAttr_stylePass od nl "a".toList _ "href".toList (by decide)]
  exact getAttr_setAttr_same a "href".toList (replaceAll od v)

theorem getAttr_applyPasses_meta (od nl : List Char) (a : List (List Char × List Char))
    (v hv : List Char)
    (hc : getAttr a "content".toList = some v)
    (hh : getAttr a "http-equiv".toList = some hv)
    (hlow : hv.map Char.toLower = "refresh".toList) :
    getAttr (applyPasses od nl "meta".toList a) "content".toList =
      some (if containsSub od v = true then replaceAll od v
        else if containsSub ('/' :: '/' :: nl) v = true then replaceAll ('/' :: '/' :: nl) v
        else v) := by
  unfold applyPasses
  rw [startAttrPass_ne od nl "a".toList "href".toList "meta".toList a (by decide)]
  rw [startAttrPass_ne od nl "script".toList "src".toList "meta".toList a (by decide)]
  rw [startAttrPass_ne od nl "img".toList "src".toList "meta".toList a (by decide)]
  rw [startAttrPass_ne od nl "link".toList "href".toList "meta".toList a (by decide)]
  have h1 : metaPass od nl "meta".toList a =
      (if containsSub od v = true then setAttr a "content".toList (replaceAll od v)
       else if containsSub ('/' :: '/' :: nl) v = true then
         setAttr a "content".toList (replaceAll ('/' :: '/' :: nl) v)
       else a) := by
    unfold metaPass
    rw [if_pos rfl, hc, hh]
    dsimp only
    rw [if_pos hlow]
  rw [h1]
  by_cases b1 : containsSub od v = true
  · rw [if_pos b1, if_pos b1]
    rw [startAttrPass_ne od nl "form".toList "action".toList "meta".toList _ (by decide)]
    rw [getAttr_dataPass od nl "meta".toList "content".toList (by decide)]
    rw [getAttr_stylePass od nl "meta".toList _ "content".toList (by decide)]
    exact getAttr_setAttr_same a "content".toList (replaceAll od v)
  · rw [if_neg b1, if_neg b1]
    by_cases b2 : containsSub ('/' :: '/' :: nl) v = true
    · rw [if_pos b2, if_pos b2]
      rw [startAttrPass_ne od nl "form".toList "action".toList "meta".toList _ (by decide)]
      rw [getAttr_dataPass od nl "meta".toList "content".toList (by decide)]
      rw [getAttr_stylePass od nl "meta".toList _ "content".toList (by decide)]
      exact getAttr_setAttr_same a "content".toList (replaceAll ('/' :: '/' :: nl) v)
    · rw [if_neg b2, if_neg b2]
      rw [startAttrPass_ne od nl "form".toList "action".toList "meta".toList _ (by decide)]
      rw [getAttr_dataPass od nl "meta".toList "content".toList (by decide)]
      rw [getAttr_stylePass od nl "meta".toList _ "content".toList (by decide)]
      exact hc

/-!
The specification claims.
-/

/-- Claim C1: the spec requires every successful `get_file_path` result to
resolve inside (or at) the content root, but the code performs no containment
check: for the request path `/../secret.txt` with content root `/srv/site`
and an existing regular file `/srv/secret.txt`, `get_file_path` returns
`/srv/site/../secret.txt`, which resolves to `/srv/secret.txt`, outside the
root. This evaluates the code at that failing input. -/
theorem C1_path_traversal_escapes_root :
    get_file_path c1Fs c1Root "/../secret.txt".toList =
      some ["srv".toList, "site".toList, "..".toList, "secret.txt".toList] ∧
    osNormalize ["srv".toList, "site".toList, "..".toList, "secret.txt".toList] =
      ["srv".toList, "secret.txt".toList] ∧
    c1Root.isPrefixOf
      (osNormalize ["srv".toList, "site".toList, "..".toList, "secret.txt".toList]) = false := by
  decide

/-- Claim C2: the spec says rewriting `url("//example.com/img.png")` yields
`url("/img.png")` and rewriting the single-quoted `url(//example.com)` form
yields an empty quoted url, but the protocol-relative patterns do not consume
the closing quote while the replacer emits both quotes, so the code actually
produces `url("/img.png"")` and a triple-quoted result, and the expected
strings do not occur in the output at all. -/
theorem C2_css_rewrite_duplicates_quote :
    rewrite_css exNl cssIn1 = cssOut1 ∧
    containsSub cssSpec1 (rewrite_css exNl cssIn1) = false ∧
    rewrite_css exNl cssIn2 = cssOut2 ∧
    containsSub cssSpec2 (rewrite_css exNl cssIn2) = false := by
  decide

/-- Claim C3: in every document, an anchor whose `href` equals
`https://example.com/foo` is rewritten so that its `href` equals `/foo`, and
an anchor whose `href` equals `https://example.com` (no path) is rewritten to
the empty string, with the anchor present in the rewritten tree. -/
theorem C3_anchor_href_rewrite (burl : List Char) (doc : Node)
    (a : List (List Char × List Char)) (ch : NodeList)
    (hin : NodeIn (.elem "a".toList a ch) doc) :
    (getAttr a "href".toList = some "https://example.com/foo".toList →
      ∃ a2 ch2, NodeIn (.elem "a".toList a2 ch2) (rewriteTree exOD exNl burl doc) ∧
        getAttr a2 "href".toList = some "/foo".toList) ∧
    (getAttr a "href".toList = some "https://example.com".toList →
      ∃ a2 ch2, NodeIn (.elem "a".toList a2 ch2) (rewriteTree exOD exNl burl doc) ∧
        getAttr a2 "href".toList = some []) := by
  constructor
  · intro hv
    obtain ⟨ch2, h2⟩ := NodeIn_rewriteTree exOD exNl burl hin
    refine ⟨_, ch2, h2, ?_⟩
    rw [getAttr_applyPasses_a exOD exNl a _ hv (by decide)]
    decide
  · intro hv
    obtain ⟨ch2, h2⟩ := NodeIn_rewriteTree exOD exNl burl hin
    refine ⟨_, ch2, h2, ?_⟩
    rw [getAttr_applyPasses_a exOD exNl a _ hv (by decide)]
    decide

/-- Witness for claim C3 at the concrete document `c3Doc`. -/
theorem C3_anchor_href_rewrite_witness :
    ∃ a2 ch2, NodeIn (.elem "a".toList a2 ch2) (rewriteTree exOD exNl mirrorBase c3Doc) ∧
      getAttr a2 "href".toList = some "/foo".toList :=
  (C3_anchor_href_rewrite mirrorBase c3Doc
    [("href".toList, "https://example.com/foo".toList)] .nil (NodeIn.refl _)).1 (by decide)

/-- Claim C4: with a content root holding exactly `index.html` and
`blog/index.html`, the request paths `/`, `/blog`, `/blog/` resolve to the
expected files and `/missing` resolves to not-found. -/
theorem C4_path_resolution_examples :
    get_file_path c4Fs c4Root "/".toList = some ["www".toList, "index.html".toList] ∧
    get_file_path c4Fs c4Root "/blog".toList =
      some ["www".toList, "blog".toList, "index.html".toList] ∧
    get_file_path c4Fs c4Root "/blog/".toList =
      some ["www".toList, "blog".toList, "index.html".toList] ∧
    get_file_path c4Fs c4Root "/missing".toList = none := by
  decide

/-- Claim C5: the safety-net substitution loop of `rewrite_html` terminates
within a bounded number of iterations on every input: running it with
iteration budget `content.length` already clears the guard (each pass of the
substitution removes at least one netloc occurrence, shortening the text), so
the while loop never runs longer than the length of the serialized text. -/
theorem C5_safety_loop_bounded (netloc content : List Char) (h : netloc ≠ []) :
    containsSub netloc (safetyLoop netloc content.length content) = false :=
  safetyLoop_clears netloc h content.length content le_rfl

/-- Witness for claim C5 on an input with overlapping netloc occurrences. -/
theorem C5_safety_loop_bounded_witness :
    containsSub exNl
      (safetyLoop exNl "exaexample.commple.com/exahttps://example.commple.com".toList.length
        "exaexample.commple.com/exahttps://example.commple.com".toList) = false :=
  C5_safety_loop_bounded exNl "exaexample.commple.com/exahttps://example.commple.com".toList
    (by decide)

/-- Claim C6 counterexample: `rewrite_css` is not idempotent and its output
can retain the netloc. On `c6In` one pass reassembles `https://example.com`
out of fragments, so a second pass produces a different (empty) result; the
first output also still contains the netloc. -/
theorem C6_css_not_idempotent :
    rewrite_css exNl (rewrite_css exNl c6In) ≠ rewrite_css exNl c6In ∧
    containsSub exNl (rewrite_css exNl c6In) = true := by
  decide

/-- Claim C6 (amended): `rewrite_html` does guarantee that no occurrence of
the configured netloc survives in its output, thanks to the serialization
safety-net loop; the css/js rewriters carry no such guarantee and are not
idempotent in general. -/
theorem C6_html_output_netloc_free (od netloc burl : List Char) (doc : Node)
    (h : netloc ≠ []) :
    containsSub netloc (rewrite_html od netloc burl doc) = false := by
  unfold rewrite_html
  exact safetyLoop_clears netloc h _ _ le_rfl

/-- Witness for the amended claim C6 on a document whose netloc occurrence
sits in a text node. -/
theorem C6_html_output_netloc_free_witness :
    containsSub exNl (rewrite_html exOD exNl mirrorBase c6Doc) = false :=
  C6_html_output_netloc_free exOD exNl mirrorBase c6Doc (by decide)

/-- Claim C7: whenever the document has a `head` element and no `base`
element anywhere, the rewritten tree contains the (first) `head` with a
`<base href="{request_base_url}">` element as its first child. -/
theorem C7_base_first_child (od nl burl : List Char) (doc : Node)
    (hhead : containsTagN "head".toList doc = true)
    (hbase : containsTagN "base".toList doc = false) :
    ∃ a ch, NodeIn
      (.elem "head".toList a
        (.cons (.elem "base".toList [("href".toList, burl)] .nil) ch))
      (rewriteTree od nl burl doc) := by
  unfold rewriteTree insertBase
  have hh : containsTagN "head".toList (mapTree (applyPasses od nl) doc) = true := by
    rw [containsTag_mapTree]; exact hhead
  have hb : containsTagN "base".toList (mapTree (applyPasses od nl) doc) = false := by
    rw [containsTag_mapTree]; exact hbase
  rw [if_pos (by rw [hh, hb]; rfl)]
  exact insHead_finds _ _ hh

/-- Witness for claim C7 at the concrete document `c7Doc`. -/
theorem C7_base_first_child_witness :
    ∃ a ch, NodeIn
      (.elem "head".toList a
        (.cons (.elem "base".toList [("href".toList, mirrorBase)] .nil) ch))
      (rewriteTree exOD exNl mirrorBase c7Doc) :=
  C7_base_first_child exOD exNl mirrorBase c7Doc (by decide) (by decide)

/-- Claim C8 counterexample: when the full-url form and the protocol-relative
form occur together in one meta-refresh content value, only the full-url form
is replaced (the branch is an elif), so `//example.com/b` survives the tree
stage verbatim. -/
theorem C8_protocol_relative_survives :
    contentAttrOf (rewriteTree exOD exNl mirrorBase c8Doc) =
      some "0;url=/a //example.com/b".toList ∧
    containsSub ('/' :: '/' :: exNl) "0;url=/a //example.com/b".toList = true := by
  decide

/-- Claim C8 (amended): the meta-refresh pass replaces occurrences of one of
the two forms anywhere inside the content attribute, not only as a prefix,
with the full-url form taking priority: every occurrence of the full
original-domain url is removed when one is present, otherwise every
occurrence of `//netloc` when one is present; the two replacements are never
both applied by this pass. -/
theorem C8_meta_refresh_replacement (od nl burl : List Char) (doc : Node)
    (a : List (List Char × List Char)) (ch : NodeList) (v hv : List Char)
    (hin : NodeIn (.elem "meta".toList a ch) doc)
    (hc : getAttr a "content".toList = some v)
    (hh : getAttr a "http-equiv".toList = some hv)
    (hlow : hv.map Char.toLower = "refresh".toList) :
    ∃ a2 ch2, NodeIn (.elem "meta".toList a2 ch2) (rewriteTree od nl burl doc) ∧
      getAttr a2 "content".toList =
        some (if containsSub od v = true then replaceAll od v
          else if containsSub ('/' :: '/' :: nl) v = true then
            replaceAll ('/' :: '/' :: nl) v
          else v) := by
  obtain ⟨ch2, h2⟩ := NodeIn_rewriteTree od nl burl hin
  exact ⟨_, ch2, h2, getAttr_applyPasses_meta od nl a v hv hc hh hlow⟩

/-- Witness for the amended claim C8 at the concrete document `c8Doc`. -/
theorem C8_meta_refresh_replacement_witness :
    ∃ a2 ch2, NodeIn (.elem "meta".toList a2 ch2)
        (rewriteTree exOD exNl mirrorBase c8Doc) ∧
      getAttr a2 "content".toList =
        some (if containsSub exOD "0;url=https://example.com/a //example.com/b".toList = true
          then replaceAll exOD "0;url=https://example.com/a //example.com/b".toList
          else if containsSub ('/' :: '/' :: exNl)
              "0;url=https://example.com/a //example.com/b".toList = true then
            replaceAll ('/' :: '/' :: exNl)
              "0;url=https://example.com/a //example.com/b".toList
          else "0;url=https://example.com/a //example.com/b".toList) :=
  C8_meta_refresh_replacement exOD exNl mirrorBase c8Doc
    [("http-equiv".toList, "refresh".toList),
     ("content".toList, "0;url=https://example.com/a //example.com/b".toList)] .nil
    "0;url=https://example.com/a //example.com/b".toList "refresh".toList
    (NodeIn.refl _) (by decide) (by decide) (by decide)

/-- Claim C9: `rewrite_css` and `rewrite_js` compute the same function; the
two methods apply the identical three compiled patterns with the identical
replacement functions in the same order. -/
theorem C9_css_js_identical (netloc content : List Char) :
    rewrite_css netloc content = rewrite_js netloc content := rfl

/-- Claim C10: the fallback branch of `get_file_path` checks only existence,
not regularity: with a directory named `theme.css` under the root, the
request `/theme.css` returns that directory path, while the direct branch
returns the regular file `app.css` for `/app.css`. -/
theorem C10_fallback_returns_directory :
    get_file_path c10Fs c10Root "/theme.css".toList =
      some ["www".toList, "theme.css".toList] ∧
    c10Fs.dirs.contains ["www".toList, "theme.css".toList] = true ∧
    c10Fs.files.contains ["www".toList, "theme.css".toList] = false ∧
    get_file_path c10Fs c10Root "/app.css".toList =
      some ["www".toList, "app.css".toList] ∧
    c10Fs.files.contains ["www".toList, "app.css".toList] = true := by
  decide
